import Mathlib

/-!
# Verification of the gate authorization credential registry

A shallow embedding of `src/gate/gate_auth.h`: the credential codec
(`parse_stored_credentials`, `credentials_to_string`), the two credential
maps (modelled as key-sorted association lists, mirroring `std::map`), and
the registry operations (`add_authorized_code`, `remove_authorized_code`,
`clear_all_codes`, `check_authorized_code`, `get_code_user_name`,
`list_authorized_codes` and their tag counterparts), together with the
lazy one-time initialization `init_default_auth` and the persistence
routine `save_credentials`.

Strings are modelled as lists of characters (`Str`), matching
`std::string` as a character sequence.
-/

/-- A C++ `std::string`, modelled as its character sequence. -/
abbrev Str := List Char

/-- `s.find(c)` followed by `substr(0, pos)` / `substr(pos + 1)`:
returns the part before the first occurrence of `c` and the part after it,
or `none` when `c` does not occur (`std::string::npos`). -/
def splitAtFirst (c : Char) : Str → Option (Str × Str)
  | [] => none
  | x :: xs =>
    if x = c then some ([], xs)
    else
      match splitAtFirst c xs with
      | none => none
      | some (a, b) => some (x :: a, b)

theorem splitAtFirst_some (c : Char) :
    ∀ (s a b : Str), splitAtFirst c s = some (a, b) →
      s = a ++ c :: b ∧ c ∉ a
  | [], a, b => by simp [splitAtFirst]
  | x :: xs, a, b => by
    simp only [splitAtFirst]
    by_cases hx : x = c
    · simp only [hx, if_pos rfl]
      intro h
      cases h
      simp
    · simp only [if_neg hx]
      cases hs : splitAtFirst c xs with
      | none => simp
      | some p =>
        rcases p with ⟨a0, b0⟩
        have ih := splitAtFirst_some c xs a0 b0 hs
        simp only [Option.some.injEq, Prod.mk.injEq]
        intro h
        rcases h with ⟨h1, h2⟩
        cases h1
        cases h2
        constructor
        · simp [ih.1]
        · simp only [List.mem_cons, not_or]
          exact ⟨fun he => hx he.symm, ih.2⟩

theorem splitAtFirst_length (c : Char) (s a b : Str)
    (h : splitAtFirst c s = some (a, b)) : b.length < s.length := by
  have hs := (splitAtFirst_some c s a b h).1
  subst hs
  simp only [List.length_append, List.length_cons]
  omega

theorem splitAtFirst_none_of_not_mem (c : Char) :
    ∀ (s : Str), c ∉ s → splitAtFirst c s = none
  | [], _ => by simp [splitAtFirst]
  | x :: xs, h => by
    simp only [List.mem_cons, not_or] at h
    have hx : ¬ x = c := fun he => h.1 he.symm
    rw [splitAtFirst, if_neg hx, splitAtFirst_none_of_not_mem c xs h.2]

theorem splitAtFirst_append_first (c : Char) :
    ∀ (a b : Str), c ∉ a → splitAtFirst c (a ++ c :: b) = some (a, b)
  | [], b, _ => by simp [splitAtFirst]
  | x :: xs, b, h => by
    simp only [List.mem_cons, not_or] at h
    have hx : ¬ x = c := fun he => h.1 he.symm
    rw [List.cons_append, splitAtFirst, if_neg hx,
      splitAtFirst_append_first c xs b h.2]

/-- The credential map, mirroring
`std::map<std::string, std::string>`: a list of key/value pairs kept in
strictly increasing key order. -/
abbrev CredMap := List (Str × Str)

/-- `std::string::operator<`: lexicographic comparison of character
sequences. -/
def strLt : Str → Str → Bool
  | _, [] => false
  | [], _ :: _ => true
  | a :: as, b :: bs =>
    if a < b then true
    else if b < a then false
    else strLt as bs

theorem strLt_irrefl : ∀ s : Str, strLt s s = false
  | [] => by simp [strLt]
  | a :: as => by
    simp [strLt, lt_irrefl, strLt_irrefl as]

theorem strLt_asymm : ∀ a b : Str, strLt a b = true → strLt b a = false
  | _, [], h => by simp [strLt] at h
  | [], _ :: _, _ => by simp [strLt]
  | a :: as, b :: bs, h => by
    by_cases hab : a < b
    · simp [strLt, hab, lt_asymm hab, not_lt_of_gt hab]
    · by_cases hba : b < a
      · simp [strLt, hab, hba] at h
      · simp only [strLt, if_neg hab, if_neg hba] at h
        simp [strLt, hab, hba, strLt_asymm as bs h]

theorem strLt_ne (a b : Str) (h : strLt a b = true) : a ≠ b := by
  intro he
  subst he
  rw [strLt_irrefl] at h
  exact absurd h (by simp)

/-- `target_map[key] = value`: insert or overwrite, keeping the sorted
order of `std::map`. -/
def mapAssign : CredMap → Str → Str → CredMap
  | [], k, v => [(k, v)]
  | p :: ps, k, v =>
    if strLt k p.1 then (k, v) :: p :: ps
    else if strLt p.1 k then p :: mapAssign ps k v
    else (p.1, v) :: ps

/-- `m.find(k)`: the stored principal name, or `none` for `m.end()`. -/
def mapFind : CredMap → Str → Option Str
  | [], _ => none
  | p :: ps, k => if p.1 = k then some p.2 else mapFind ps k

/-- `m.erase(it)` after a successful `find`: drop the entry with the
given key. -/
def mapErase : CredMap → Str → CredMap
  | [], _ => []
  | p :: ps, k => if p.1 = k then ps else p :: mapErase ps k

/-- `m.size()`. -/
def mapSize (m : CredMap) : Nat := m.length

/-- The `std::map` representation invariant: keys strictly increase. -/
def MapWF (m : CredMap) : Prop :=
  List.Pairwise (fun a b : Str × Str => strLt a.1 b.1 = true) m

instance (m : CredMap) : Decidable (MapWF m) := by
  unfold MapWF
  infer_instance

/-- One entry of the parse loop body: split on the first `':'`; when a
colon is present assign `key -> value`, otherwise leave the map alone. -/
def parseEntry (entry : Str) (m : CredMap) : CredMap :=
  match splitAtFirst ':' entry with
  | some (k, v) => mapAssign m k v
  | none => m

/-- The `while ((pos = data.find(',')) != npos)` scanning loop of
`parse_stored_credentials`, including the final no-comma remainder
(“last entry”) handling after the loop. -/
def parseLoop (data : Str) (m : CredMap) : CredMap :=
  match h : splitAtFirst ',' data with
  | some er => parseLoop er.2 (parseEntry er.1 m)
  | none => parseEntry data m
termination_by data.length
decreasing_by
  exact splitAtFirst_length ',' data er.1 er.2 h

/-- `parse_stored_credentials(stored_data, target_map)`: early-return on
the empty string, otherwise run the comma loop. -/
def parse_stored_credentials (stored_data : Str) (m : CredMap) : CredMap :=
  if stored_data = [] then m else parseLoop stored_data m

/-- Fuel-indexed unrolling of `parseLoop`, used to evaluate it on
concrete inputs (the loop itself recurses on a decreasing length
measure). -/
def parseLoopFuel : Nat → Str → CredMap → CredMap
  | 0, data, m => parseEntry data m
  | fuel + 1, data, m =>
    match splitAtFirst ',' data with
    | some er => parseLoopFuel fuel er.2 (parseEntry er.1 m)
    | none => parseEntry data m

theorem parseLoop_eq_fuel :
    ∀ (fuel : Nat) (data : Str) (m : CredMap), data.length ≤ fuel →
      parseLoop data m = parseLoopFuel fuel data m
  | 0, data, m, h => by
    have hd : data = [] := by
      cases data with
      | nil => rfl
      | cons x xs => simp at h
    subst hd
    rw [parseLoop]
    simp [parseLoopFuel, splitAtFirst]
  | fuel + 1, data, m, h => by
    rw [parseLoop]
    cases hs : splitAtFirst ',' data with
    | none => simp [parseLoopFuel, hs]
    | some er =>
      have hlen := splitAtFirst_length ',' data er.1 er.2 (by
        rw [hs])
      simp only [parseLoopFuel, hs]
      exact parseLoop_eq_fuel fuel er.2 (parseEntry er.1 m) (by omega)

theorem parse_eq_fuel (s : Str) (m : CredMap) :
    parse_stored_credentials s m = parseLoopFuel s.length s m := by
  unfold parse_stored_credentials
  by_cases hs : s = []
  · subst hs
    simp [parseLoopFuel, parseEntry, splitAtFirst]
  · rw [if_neg hs]
    exact parseLoop_eq_fuel s.length s m (le_refl _)

/-- The body of `credentials_to_string`: `result` accumulator and `first`
flag, one loop step per map entry (`result += ","` between entries,
then `result += pair.first + ":" + pair.second`). -/
def ctsLoop : CredMap → Str → Bool → Str
  | [], acc, _ => acc
  | p :: ps, acc, first =>
    ctsLoop ps (acc ++ (if first then [] else [',']) ++ p.1 ++ ':' :: p.2) false

/-- `credentials_to_string(creds_map)`: start from the empty `result`
with `first = true`. -/
def credentials_to_string (m : CredMap) : Str := ctsLoop m [] true

/-- `","` followed by one encoded entry, repeated: the shape of the
encoder output after its first entry. -/
def commaJoin : CredMap → Str
  | [] => []
  | p :: ps => ',' :: (p.1 ++ ':' :: p.2) ++ commaJoin ps

theorem ctsLoop_false :
    ∀ (m : CredMap) (acc : Str), ctsLoop m acc false = acc ++ commaJoin m
  | [], acc => by simp [ctsLoop, commaJoin]
  | p :: ps, acc => by
    simp only [ctsLoop, commaJoin, if_neg (by simp : ¬ (false = true))]
    rw [ctsLoop_false ps]
    simp

theorem credentials_to_string_nil : credentials_to_string [] = [] := rfl

theorem credentials_to_string_cons (p : Str × Str) (ps : CredMap) :
    credentials_to_string (p :: ps) = (p.1 ++ ':' :: p.2) ++ commaJoin ps := by
  unfold credentials_to_string
  simp only [ctsLoop, if_pos rfl]
  rw [ctsLoop_false ps]
  simp

/-- Maximum number of stored codes (`MAX_CODES`). -/
def MAX_CODES : Nat := 50

/-- Maximum number of stored tags (`MAX_TAGS`). -/
def MAX_TAGS : Nat := 50

/-- The process-wide registry state: the two credential maps, the
one-time-init guard (`static bool initialized`), the persisted globals
`id(stored_codes)` / `id(stored_tags)`, a log of `save_credentials`
invocations (most recent first, each carrying the pair of strings
written), and counters of `load_persisted` reads per class (each
execution of the init body reads both stored globals once). -/
structure RegState where
  codes : CredMap
  tags : CredMap
  inited : Bool
  stored_codes : Str
  stored_tags : Str
  saveLog : List (Str × Str)
  loadCodes : Nat
  loadTags : Nat
deriving DecidableEq

/-- A fresh process: maps empty, guard unset, given persisted strings,
no persistence or load events yet. -/
def freshState (sc st : Str) : RegState :=
  { codes := [], tags := [], inited := false,
    stored_codes := sc, stored_tags := st,
    saveLog := [], loadCodes := 0, loadTags := 0 }

/-- `save_credentials()`: encode both maps and write both persisted
globals; one callback invocation is logged carrying both strings. -/
def save_credentials (s : RegState) : RegState :=
  { s with
    stored_codes := credentials_to_string s.codes,
    stored_tags := credentials_to_string s.tags,
    saveLog := (credentials_to_string s.codes, credentials_to_string s.tags)
      :: s.saveLog }

/-- `init_default_auth()`: guarded one-time lazy initialization, parsing
both persisted globals into the maps and reading each once. -/
def init_default_auth (s : RegState) : RegState :=
  if s.inited then s
  else
    { s with
      codes := parse_stored_credentials s.stored_codes s.codes,
      tags := parse_stored_credentials s.stored_tags s.tags,
      inited := true,
      loadCodes := s.loadCodes + 1,
      loadTags := s.loadTags + 1 }

/-- `add_authorized_code(code, name)`: init, reject when the map already
holds `MAX_CODES` entries, otherwise assign and persist. -/
def add_authorized_code (s : RegState) (code name₀ : Str) : RegState :=
  let t := init_default_auth s
  if MAX_CODES ≤ mapSize t.codes then t
  else save_credentials { t with codes := mapAssign t.codes code name₀ }

/-- `add_authorized_tag(tag, name)`. -/
def add_authorized_tag (s : RegState) (tag name₀ : Str) : RegState :=
  let t := init_default_auth s
  if MAX_TAGS ≤ mapSize t.tags then t
  else save_credentials { t with tags := mapAssign t.tags tag name₀ }

/-- `remove_authorized_code(code)`: init, erase-and-persist when found,
no-op (warning log only) when absent. -/
def remove_authorized_code (s : RegState) (code : Str) : RegState :=
  let t := init_default_auth s
  match mapFind t.codes code with
  | some _ => save_credentials { t with codes := mapErase t.codes code }
  | none => t

/-- `remove_authorized_tag(tag)`. -/
def remove_authorized_tag (s : RegState) (tag : Str) : RegState :=
  let t := init_default_auth s
  match mapFind t.tags tag with
  | some _ => save_credentials { t with tags := mapErase t.tags tag }
  | none => t

/-- `clear_all_codes()`: unconditionally empty the codes map and persist.
Note: this function does not call `init_default_auth`. -/
def clear_all_codes (s : RegState) : RegState :=
  save_credentials { s with codes := [] }

/-- `clear_all_tags()`: unconditionally empty the tags map and persist.
Note: this function does not call `init_default_auth`. -/
def clear_all_tags (s : RegState) : RegState :=
  save_credentials { s with tags := [] }

/-- `check_authorized_code(code)`: init, then a pure membership test. -/
def check_authorized_code (s : RegState) (code : Str) : RegState × Bool :=
  let t := init_default_auth s
  (t, (mapFind t.codes code).isSome)

/-- `check_authorized_tag(tag)`. -/
def check_authorized_tag (s : RegState) (tag : Str) : RegState × Bool :=
  let t := init_default_auth s
  (t, (mapFind t.tags tag).isSome)

/-- `get_code_user_name(code)`: the stored principal name, or
`"Unknown"` when absent. -/
def get_code_user_name (s : RegState) (code : Str) : RegState × Str :=
  let t := init_default_auth s
  (t, match mapFind t.codes code with
      | some n => n
      | none => ("Unknown").data)

/-- `get_tag_user_name(tag)`. -/
def get_tag_user_name (s : RegState) (tag : Str) : RegState × Str :=
  let t := init_default_auth s
  (t, match mapFind t.tags tag with
      | some n => n
      | none => ("Unknown").data)

/-- `list_authorized_codes()`: init, then enumerate the codes map in its
key order. -/
def list_authorized_codes (s : RegState) : RegState × CredMap :=
  let t := init_default_auth s
  (t, t.codes)

/-- `list_authorized_tags()`. -/
def list_authorized_tags (s : RegState) : RegState × CredMap :=
  let t := init_default_auth s
  (t, t.tags)

/-- One public registry operation, with its arguments. -/
inductive GateOp where
  | addCode (c n : Str)
  | addTag (t n : Str)
  | remCode (c : Str)
  | remTag (t : Str)
  | clrCodes
  | clrTags
  | chkCode (c : Str)
  | chkTag (t : Str)
  | userCode (c : Str)
  | userTag (t : Str)
  | lstCodes
  | lstTags
deriving DecidableEq

/-- Whether the operation is one of the two clear functions (the only
public operations whose bodies do not start with `init_default_auth`). -/
def GateOp.isClear : GateOp → Bool
  | .clrCodes => true
  | .clrTags => true
  | _ => false

/-- Execute one public operation on the registry state. -/
def step (s : RegState) : GateOp → RegState
  | .addCode c n => add_authorized_code s c n
  | .addTag t n => add_authorized_tag s t n
  | .remCode c => remove_authorized_code s c
  | .remTag t => remove_authorized_tag s t
  | .clrCodes => clear_all_codes s
  | .clrTags => clear_all_tags s
  | .chkCode c => (check_authorized_code s c).1
  | .chkTag t => (check_authorized_tag s t).1
  | .userCode c => (get_code_user_name s c).1
  | .userTag t => (get_tag_user_name s t).1
  | .lstCodes => (list_authorized_codes s).1
  | .lstTags => (list_authorized_tags s).1

/-- Execute a sequence of public operations. -/
def run (s : RegState) (ops : List GateOp) : RegState := ops.foldl step s

theorem init_of_inited (s : RegState) (h : s.inited = true) :
    init_default_auth s = s := by
  simp [init_default_auth, h]

theorem init_inited (s : RegState) : (init_default_auth s).inited = true := by
  unfold init_default_auth
  split
  · assumption
  · rfl

theorem init_saveLog (s : RegState) :
    (init_default_auth s).saveLog = s.saveLog := by
  unfold init_default_auth
  split <;> rfl

theorem parseLoop_none (data : Str) (m : CredMap)
    (h : splitAtFirst ',' data = none) : parseLoop data m = parseEntry data m := by
  rw [parseLoop]
  split
  · next er heq =>
    rw [h] at heq
    cases heq
  · rfl

theorem parseLoop_some (data e r : Str) (m : CredMap)
    (h : splitAtFirst ',' data = some (e, r)) :
    parseLoop data m = parseLoop r (parseEntry e m) := by
  rw [parseLoop]
  split
  · next er heq =>
    rw [h] at heq
    cases heq
    rfl
  · next heq =>
    rw [h] at heq
    cases heq

theorem mapAssign_size_le (k v : Str) :
    ∀ m : CredMap, mapSize (mapAssign m k v) ≤ mapSize m + 1
  | [] => by simp [mapAssign, mapSize]
  | p :: ps => by
    simp only [mapAssign]
    split
    · simp [mapSize]
    · split
      · have ih := mapAssign_size_le k v ps
        simp only [mapSize, List.length_cons] at *
        omega
      · simp [mapSize]

theorem mapErase_size_le (k : Str) :
    ∀ m : CredMap, mapSize (mapErase m k) ≤ mapSize m
  | [] => by simp [mapErase, mapSize]
  | p :: ps => by
    simp only [mapErase]
    split
    · simp [mapSize]
    · have ih := mapErase_size_le k ps
      simp only [mapSize, List.length_cons] at *
      omega

theorem mapFind_eq_none_of (k : Str) :
    ∀ m : CredMap, (∀ p ∈ m, p.1 ≠ k) → mapFind m k = none
  | [], _ => rfl
  | p :: ps, h => by
    simp only [mapFind, if_neg (h p (List.mem_cons_self p ps))]
    exact mapFind_eq_none_of k ps (fun q hq => h q (List.mem_cons_of_mem p hq))

theorem mapErase_find_none (k : Str) :
    ∀ m : CredMap, MapWF m → mapFind (mapErase m k) k = none
  | [], _ => rfl
  | p :: ps, h => by
    rcases (List.pairwise_cons.mp h) with ⟨hp, hps⟩
    simp only [mapErase]
    split
    · next he =>
      exact mapFind_eq_none_of k ps
        (fun q hq => fun hqe => strLt_ne p.1 q.1 (hp q hq) (he.trans hqe.symm))
    · next he =>
      simp only [mapFind, if_neg he]
      exact mapErase_find_none k ps hps

theorem save_fields (s : RegState) :
    (save_credentials s).codes = s.codes ∧ (save_credentials s).tags = s.tags ∧
    (save_credentials s).inited = s.inited ∧
    (save_credentials s).loadCodes = s.loadCodes ∧
    (save_credentials s).loadTags = s.loadTags := by
  simp [save_credentials]

theorem step_of_inited (s : RegState) (o : GateOp) (h : s.inited = true) :
    (step s o).inited = true ∧ (step s o).loadCodes = s.loadCodes ∧
    (step s o).loadTags = s.loadTags := by
  have hi := init_of_inited s h
  cases o with
  | addCode c n =>
    simp only [step, add_authorized_code, hi]
    split
    · exact ⟨h, rfl, rfl⟩
    · simp [save_credentials, h]
  | addTag t n =>
    simp only [step, add_authorized_tag, hi]
    split
    · exact ⟨h, rfl, rfl⟩
    · simp [save_credentials, h]
  | remCode c =>
    simp only [step, remove_authorized_code, hi]
    split
    · simp [save_credentials, h]
    · exact ⟨h, rfl, rfl⟩
  | remTag t =>
    simp only [step, remove_authorized_tag, hi]
    split
    · simp [save_credentials, h]
    · exact ⟨h, rfl, rfl⟩
  | clrCodes => simp [step, clear_all_codes, save_credentials, h]
  | clrTags => simp [step, clear_all_tags, save_credentials, h]
  | chkCode c => simp [step, check_authorized_code, hi, h]
  | chkTag t => simp [step, check_authorized_tag, hi, h]
  | userCode c => simp [step, get_code_user_name, hi, h]
  | userTag t => simp [step, get_tag_user_name, hi, h]
  | lstCodes => simp [step, list_authorized_codes, hi, h]
  | lstTags => simp [step, list_authorized_tags, hi, h]

theorem run_of_inited :
    ∀ (ops : List GateOp) (s : RegState), s.inited = true →
      (run s ops).inited = true ∧ (run s ops).loadCodes = s.loadCodes ∧
      (run s ops).loadTags = s.loadTags
  | [], s, h => ⟨h, rfl, rfl⟩
  | o :: ops, s, h => by
    have hs := step_of_inited s o h
    have ih := run_of_inited ops (step s o) hs.1
    refine ⟨ih.1, ?_, ?_⟩
    · rw [show run s (o :: ops) = run (step s o) ops from rfl, ih.2.1, hs.2.1]
    · rw [show run s (o :: ops) = run (step s o) ops from rfl, ih.2.2, hs.2.2]

theorem step_clear_preserves (s : RegState) (o : GateOp)
    (h : o.isClear = true) :
    (step s o).inited = s.inited ∧ (step s o).loadCodes = s.loadCodes ∧
    (step s o).loadTags = s.loadTags := by
  cases o <;> simp [GateOp.isClear] at h <;>
    simp [step, clear_all_codes, clear_all_tags, save_credentials]

theorem step_nonclear_fresh (s : RegState) (o : GateOp)
    (h : o.isClear = false) (hs : s.inited = false) :
    (step s o).inited = true ∧ (step s o).loadCodes = s.loadCodes + 1 ∧
    (step s o).loadTags = s.loadTags + 1 := by
  have hinit : (init_default_auth s).inited = true ∧
      (init_default_auth s).loadCodes = s.loadCodes + 1 ∧
      (init_default_auth s).loadTags = s.loadTags + 1 := by
    simp [init_default_auth, hs]
  cases o with
  | addCode c n =>
    simp only [step, add_authorized_code]
    split
    · exact hinit
    · simp [save_credentials, hinit.1, hinit.2.1, hinit.2.2]
  | addTag t n =>
    simp only [step, add_authorized_tag]
    split
    · exact hinit
    · simp [save_credentials, hinit.1, hinit.2.1, hinit.2.2]
  | remCode c =>
    simp only [step, remove_authorized_code]
    split
    · simp [save_credentials, hinit.1, hinit.2.1, hinit.2.2]
    · exact hinit
  | remTag t =>
    simp only [step, remove_authorized_tag]
    split
    · simp [save_credentials, hinit.1, hinit.2.1, hinit.2.2]
    · exact hinit
  | clrCodes => simp [GateOp.isClear] at h
  | clrTags => simp [GateOp.isClear] at h
  | chkCode c => simpa [step, check_authorized_code] using hinit
  | chkTag t => simpa [step, check_authorized_tag] using hinit
  | userCode c => simpa [step, get_code_user_name] using hinit
  | userTag t => simpa [step, get_tag_user_name] using hinit
  | lstCodes => simpa [step, list_authorized_codes] using hinit
  | lstTags => simpa [step, list_authorized_tags] using hinit

theorem run_loads_of_fresh :
    ∀ (ops : List GateOp) (s : RegState), s.inited = false →
      s.loadCodes = 0 → s.loadTags = 0 →
      (run s ops).loadCodes
          = (if ops.any (fun o => ! o.isClear) then 1 else 0) ∧
      (run s ops).loadTags
          = (if ops.any (fun o => ! o.isClear) then 1 else 0)
  | [], s, _, hc, ht => by simp [run, hc, ht]
  | o :: ops, s, hs, hc, ht => by
    have hrun : run s (o :: ops) = run (step s o) ops := rfl
    cases hcl : o.isClear with
    | true =>
      have hp := step_clear_preserves s o hcl
      have ih := run_loads_of_fresh ops (step s o)
        (hp.1.trans hs) (hp.2.1.trans hc) (hp.2.2.trans ht)
      rw [hrun, ih.1, ih.2]
      simp [hcl]
    | false =>
      have hp := step_nonclear_fresh s o hcl hs
      have hfin := run_of_inited ops (step s o) hp.1
      rw [hrun, hfin.2.1, hfin.2.2, hp.2.1, hp.2.2, hc, ht]
      simp [hcl]

theorem step_sizes (s : RegState) (o : GateOp) (h : s.inited = true)
    (hc : mapSize s.codes ≤ MAX_CODES) (ht : mapSize s.tags ≤ MAX_TAGS) :
    mapSize (step s o).codes ≤ MAX_CODES ∧
    mapSize (step s o).tags ≤ MAX_TAGS := by
  have hi := init_of_inited s h
  cases o with
  | addCode c n =>
    simp only [step, add_authorized_code, hi]
    split
    · exact ⟨hc, ht⟩
    · next hlt =>
      have hsz := mapAssign_size_le c n s.codes
      simp only [save_credentials]
      simp only [MAX_CODES, not_le] at hlt
      exact ⟨by simp only [MAX_CODES]; omega, ht⟩
  | addTag t n =>
    simp only [step, add_authorized_tag, hi]
    split
    · exact ⟨hc, ht⟩
    · next hlt =>
      have hsz := mapAssign_size_le t n s.tags
      simp only [save_credentials]
      simp only [MAX_TAGS, not_le] at hlt
      exact ⟨hc, by simp only [MAX_TAGS]; omega⟩
  | remCode c =>
    simp only [step, remove_authorized_code, hi]
    split
    · have hsz := mapErase_size_le c s.codes
      simp only [save_credentials]
      exact ⟨by omega, ht⟩
    · exact ⟨hc, ht⟩
  | remTag t =>
    simp only [step, remove_authorized_tag, hi]
    split
    · have hsz := mapErase_size_le t s.tags
      simp only [save_credentials]
      exact ⟨hc, by omega⟩
    · exact ⟨hc, ht⟩
  | clrCodes =>
    simp only [step, clear_all_codes, save_credentials]
    exact ⟨by simp [mapSize, MAX_CODES], ht⟩
  | clrTags =>
    simp only [step, clear_all_tags, save_credentials]
    exact ⟨hc, by simp [mapSize, MAX_TAGS]⟩
  | chkCode c => simpa [step, check_authorized_code, hi] using ⟨hc, ht⟩
  | chkTag t => simpa [step, check_authorized_tag, hi] using ⟨hc, ht⟩
  | userCode c => simpa [step, get_code_user_name, hi] using ⟨hc, ht⟩
  | userTag t => simpa [step, get_tag_user_name, hi] using ⟨hc, ht⟩
  | lstCodes => simpa [step, list_authorized_codes, hi] using ⟨hc, ht⟩
  | lstTags => simpa [step, list_authorized_tags, hi] using ⟨hc, ht⟩

theorem run_sizes :
    ∀ (ops : List GateOp) (s : RegState), s.inited = true →
      mapSize s.codes ≤ MAX_CODES → mapSize s.tags ≤ MAX_TAGS →
      mapSize (run s ops).codes ≤ MAX_CODES ∧
      mapSize (run s ops).tags ≤ MAX_TAGS
  | [], _, _, hc, ht => ⟨hc, ht⟩
  | o :: ops, s, h, hc, ht => by
    have hs := step_sizes s o h hc ht
    exact run_sizes ops (step s o) (step_of_inited s o h).1 hs.1 hs.2

theorem mapAssign_append_gt (k v : Str) :
    ∀ m : CredMap, (∀ p ∈ m, strLt p.1 k = true) →
      mapAssign m k v = m ++ [(k, v)]
  | [], _ => rfl
  | p :: ps, h => by
    have hp := h p (List.mem_cons_self p ps)
    have hkp : strLt k p.1 = false := strLt_asymm p.1 k hp
    simp only [mapAssign, hkp, hp]
    rw [mapAssign_append_gt k v ps
      (fun q hq => h q (List.mem_cons_of_mem p hq))]
    simp

theorem foldl_assign_sorted :
    ∀ (es : CredMap) (acc : CredMap),
      List.Pairwise (fun a b : Str × Str => strLt a.1 b.1 = true) (acc ++ es) →
      List.foldl (fun m p => mapAssign m p.1 p.2) acc es = acc ++ es
  | [], acc, _ => by simp
  | e :: es, acc, h => by
    have hlt : ∀ p ∈ acc, strLt p.1 e.1 = true := by
      rcases List.pairwise_append.mp h with ⟨_, _, hcross⟩
      exact fun p hp => hcross p hp e (List.mem_cons_self e es)
    have hass : mapAssign acc e.1 e.2 = acc ++ [e] := by
      rw [mapAssign_append_gt e.1 e.2 acc hlt]
    have hperm : (acc ++ [e]) ++ es = acc ++ e :: es := by simp
    have ih := foldl_assign_sorted es (acc ++ [e]) (by rw [hperm]; exact h)
    calc List.foldl (fun m p => mapAssign m p.1 p.2) acc (e :: es)
        = List.foldl (fun m p => mapAssign m p.1 p.2) (mapAssign acc e.1 e.2) es := rfl
      _ = List.foldl (fun m p => mapAssign m p.1 p.2) (acc ++ [e]) es := by rw [hass]
      _ = (acc ++ [e]) ++ es := ih
      _ = acc ++ e :: es := hperm

theorem parseLoop_commaJoin :
    ∀ (ps : CredMap) (k v : Str) (acc : CredMap),
      ',' ∉ k → ':' ∉ k → ',' ∉ v →
      (∀ p ∈ ps, (',' ∉ p.1 ∧ ':' ∉ p.1) ∧ ',' ∉ p.2) →
      parseLoop ((k ++ ':' :: v) ++ commaJoin ps) acc
        = List.foldl (fun m p => mapAssign m p.1 p.2) (mapAssign acc k v) ps
  | [], k, v, acc, hkc, hkk, hvc, _ => by
    have hnc : ',' ∉ k ++ ':' :: v := by
      simp only [List.mem_append, List.mem_cons, not_or]
      exact ⟨hkc, by decide, hvc⟩
    rw [commaJoin, List.append_nil,
      parseLoop_none _ acc (splitAtFirst_none_of_not_mem ',' _ hnc)]
    simp only [parseEntry, splitAtFirst_append_first ':' k v hkk]
    rfl
  | q :: qs, k, v, acc, hkc, hkk, hvc, hps => by
    have hq := hps q (List.mem_cons_self q qs)
    have hqs : ∀ p ∈ qs, (',' ∉ p.1 ∧ ':' ∉ p.1) ∧ ',' ∉ p.2 :=
      fun p hp => hps p (List.mem_cons_of_mem q hp)
    have hnck : ',' ∉ k ++ ':' :: v := by
      simp only [List.mem_append, List.mem_cons, not_or]
      exact ⟨hkc, by decide, hvc⟩
    have hshape : (k ++ ':' :: v) ++ commaJoin (q :: qs)
        = (k ++ ':' :: v) ++ ',' :: ((q.1 ++ ':' :: q.2) ++ commaJoin qs) := by
      simp [commaJoin]
    rw [hshape, parseLoop_some _ _ _ acc
      (splitAtFirst_append_first ',' (k ++ ':' :: v) _ hnck)]
    have hentry : parseEntry (k ++ ':' :: v) acc = mapAssign acc k v := by
      simp only [parseEntry, splitAtFirst_append_first ':' k v hkk]
    rw [hentry,
      parseLoop_commaJoin qs q.1 q.2 (mapAssign acc k v) hq.1.1 hq.1.2 hq.2 hqs]
    rfl

/-- A codes map already holding `MAX_CODES` distinct single-character
keys (codepoints 65..114), each mapped to the empty principal name. -/
def full50 : CredMap :=
  (List.range 50).map (fun i => ([Char.ofNat (65 + i)], ([] : Str)))

/-- An initialized registry whose codes map is full. -/
def fullReg : RegState :=
  { codes := full50, tags := [], inited := true,
    stored_codes := [], stored_tags := [],
    saveLog := [], loadCodes := 1, loadTags := 1 }

/-- A persisted codes blob holding 51 distinct entries
(`"A:,B:,...,s:,"`; the final empty remainder after the trailing comma
has no colon and is dropped by the parser). -/
def big51 : Str :=
  (List.range 51).foldr (fun i acc => Char.ofNat (65 + i) :: ':' :: ',' :: acc) []

/-- A small initialized registry used as a concrete witness state. -/
def regW : RegState :=
  { codes := [(("a").data, ("1").data)], tags := [(("t").data, ("2").data)],
    inited := true, stored_codes := [], stored_tags := [],
    saveLog := [], loadCodes := 1, loadTags := 1 }

/-- C1 counterexample: on a full (50-entry) codes map, calling
`add_authorized_code` with an id that is **already a key** does not
update that id's principal name — the capacity check fires first
(`size() >= MAX_CODES` is tested before any key lookup) and the call
returns with the state completely unchanged (no update, no
persistence). The claim says such an overwrite call succeeds. -/
theorem claim1_cex :
    mapSize fullReg.codes = MAX_CODES ∧
    mapFind fullReg.codes (("A").data) = some [] ∧
    mapFind (add_authorized_code fullReg (("A").data) (("X").data)).codes
        (("A").data) ≠ some (("X").data) ∧
    add_authorized_code fullReg (("A").data) (("X").data) = fullReg := by
  decide

/-- C1 (amended): when the codes map already holds `MAX_CODES` entries,
`add_authorized_code` fails regardless of whether the id is already a
key — overwrites also count against the capacity check — leaving the
state unchanged with no persistence; when the map holds fewer than
`MAX_CODES` entries the id is inserted or overwritten and exactly one
persistence call records the new encoding. -/
theorem claim1_amended (s : RegState) (c n : Str) :
    (MAX_CODES ≤ mapSize (init_default_auth s).codes →
        add_authorized_code s c n = init_default_auth s) ∧
    (mapSize (init_default_auth s).codes < MAX_CODES →
        (add_authorized_code s c n).codes
            = mapAssign (init_default_auth s).codes c n ∧
        (add_authorized_code s c n).saveLog
            = (credentials_to_string (mapAssign (init_default_auth s).codes c n),
               credentials_to_string (init_default_auth s).tags)
              :: s.saveLog) := by
  constructor
  · intro h
    simp [add_authorized_code, if_pos h]
  · intro h
    simp only [add_authorized_code, if_neg (not_le.mpr h)]
    exact ⟨by simp [save_credentials],
      by simp [save_credentials, init_saveLog]⟩

/-- C1 witness: the amended theorem applied to the full registry. -/
theorem claim1_witness :
    MAX_CODES ≤ mapSize (init_default_auth fullReg).codes ∧
    add_authorized_code fullReg (("A").data) (("X").data)
      = init_default_auth fullReg :=
  ⟨by decide, (claim1_amended fullReg (("A").data) (("X").data)).1 (by decide)⟩

/-- C2 counterexample: a single public operation (`clear_all_codes`,
N = 1) starting from the uninitialized state leaves the load counters at
zero — `clear_all_codes` and `clear_all_tags` do not invoke the guarded
lazy-init routine, so `load_persisted` is never called. The claim says
every public operation initializes, giving exactly one load per class. -/
theorem claim2_cex :
    ¬ ((run (freshState (("a:1").data) []) [GateOp.clrCodes]).loadCodes = 1 ∧
       (run (freshState (("a:1").data) []) [GateOp.clrCodes]).loadTags = 1) := by
  decide

/-- C2 (amended): every public operation except the two clear functions
invokes the guarded lazy-init routine as its first step. Starting from
the uninitialized state, after any sequence of public operations the
persistence collaborator's load has run exactly once per class if the
sequence contains at least one non-clear operation, and zero times if it
consists solely of clear operations. -/
theorem claim2_amended (sc st : Str) (ops : List GateOp) :
    (run (freshState sc st) ops).loadCodes
        = (if ops.any (fun o => ! o.isClear) then 1 else 0) ∧
    (run (freshState sc st) ops).loadTags
        = (if ops.any (fun o => ! o.isClear) then 1 else 0) :=
  run_loads_of_fresh ops (freshState sc st) rfl rfl rfl

set_option maxRecDepth 40000 in
/-- C3 counterexample: the state reached by one public operation
(`list_authorized_codes`) from a fresh process whose persisted codes
string holds 51 entries has 51 entries in the codes map —
`parse_stored_credentials` enforces no capacity bound, so the invariant
`|codes| ≤ MAX_CODES` fails immediately after lazy initialization. -/
theorem claim3_cex :
    ¬ (mapSize (run (freshState big51 []) [GateOp.lstCodes]).codes
        ≤ MAX_CODES) := by
  have h1 : (run (freshState big51 []) [GateOp.lstCodes]).codes
      = parse_stored_credentials big51 [] := by
    simp [run, step, list_authorized_codes, init_default_auth, freshState]
  rw [h1, parse_eq_fuel]
  decide

/-- C3 (amended): the capacity invariant is preserved by every public
operation from any initialized state that satisfies it — mutations never
grow a map beyond its maximum — but initialization itself can violate it
when the persisted string decodes to more than `MAX` entries. -/
theorem claim3_amended (s : RegState) (ops : List GateOp)
    (h : s.inited = true) (hc : mapSize s.codes ≤ MAX_CODES)
    (ht : mapSize s.tags ≤ MAX_TAGS) :
    mapSize (run s ops).codes ≤ MAX_CODES ∧
    mapSize (run s ops).tags ≤ MAX_TAGS :=
  run_sizes ops s h hc ht

/-- C3 witness: the amended theorem applied to a small initialized
registry and one add operation. -/
theorem claim3_witness :
    regW.inited = true ∧ mapSize regW.codes ≤ MAX_CODES ∧
    mapSize regW.tags ≤ MAX_TAGS ∧
    (mapSize (run regW [GateOp.addCode (("b").data) (("2").data)]).codes
        ≤ MAX_CODES ∧
     mapSize (run regW [GateOp.addCode (("b").data) (("2").data)]).tags
        ≤ MAX_TAGS) :=
  ⟨rfl, by decide, by decide,
    claim3_amended regW [GateOp.addCode (("b").data) (("2").data)] rfl
      (by decide) (by decide)⟩

/-- C4: decode is lenient — `"a:1,bad,b:2"` yields exactly the two
well-formed entries, the no-colon middle entry is silently dropped, and
the trailing entry after the last comma is retained. Totality over
arbitrary input is by construction: `parse_stored_credentials` is a
total function (its loop terminates on every string, see C10). -/
theorem claim4_lenient :
    parse_stored_credentials (("a:1,bad,b:2").data) []
      = [(("a").data, ("1").data), (("b").data, ("2").data)] := by
  rw [parse_eq_fuel]
  decide

/-- C5: `remove_authorized_code` on an absent id leaves the state
exactly as lazy initialization left it (map untouched, no persistence
event); on a present id it removes exactly that entry, logs exactly one
persistence invocation whose codes string is the encoding of the erased
map, and the removed id is absent from the map that was re-encoded. -/
theorem claim5_remove (s : RegState) (c : Str)
    (hwf : MapWF (init_default_auth s).codes) :
    (mapFind (init_default_auth s).codes c = none →
        remove_authorized_code s c = init_default_auth s) ∧
    (∀ v, mapFind (init_default_auth s).codes c = some v →
        (remove_authorized_code s c).codes
            = mapErase (init_default_auth s).codes c ∧
        (remove_authorized_code s c).saveLog
            = (credentials_to_string (mapErase (init_default_auth s).codes c),
               credentials_to_string (init_default_auth s).tags)
              :: s.saveLog ∧
        mapFind (mapErase (init_default_auth s).codes c) c = none) := by
  constructor
  · intro h
    simp [remove_authorized_code, h]
  · intro v h
    refine ⟨?_, ?_, mapErase_find_none c _ hwf⟩
    · simp [remove_authorized_code, h, save_credentials]
    · simp [remove_authorized_code, h, save_credentials, init_saveLog]

/-- C5 witness: removing the present id `"a"` from the small registry. -/
theorem claim5_witness :
    MapWF (init_default_auth regW).codes ∧
    mapFind (init_default_auth regW).codes (("a").data) = some (("1").data) ∧
    ((remove_authorized_code regW (("a").data)).codes
        = mapErase (init_default_auth regW).codes (("a").data) ∧
     (remove_authorized_code regW (("a").data)).saveLog
        = (credentials_to_string (mapErase (init_default_auth regW).codes (("a").data)),
           credentials_to_string (init_default_auth regW).tags) :: regW.saveLog ∧
     mapFind (mapErase (init_default_auth regW).codes (("a").data)) (("a").data)
        = none) :=
  ⟨by decide, by decide,
    (claim5_remove regW (("a").data) (by decide)).2 (("1").data) (by decide)⟩

/-- C6: every mutating operation that goes through — a capacity-passing
add, a found remove, and every clear (clearing an empty map included,
since the clears persist unconditionally) — appends exactly one
persistence invocation to the log, and that single invocation carries
the freshly encoded state of **both** classes. -/
theorem claim6_persist (s : RegState) (c n : Str) :
    (mapSize (init_default_auth s).codes < MAX_CODES →
        (add_authorized_code s c n).saveLog
          = (credentials_to_string (mapAssign (init_default_auth s).codes c n),
             credentials_to_string (init_default_auth s).tags) :: s.saveLog) ∧
    (mapSize (init_default_auth s).tags < MAX_TAGS →
        (add_authorized_tag s c n).saveLog
          = (credentials_to_string (init_default_auth s).codes,
             credentials_to_string (mapAssign (init_default_auth s).tags c n))
            :: s.saveLog) ∧
    (∀ v, mapFind (init_default_auth s).codes c = some v →
        (remove_authorized_code s c).saveLog
          = (credentials_to_string (mapErase (init_default_auth s).codes c),
             credentials_to_string (init_default_auth s).tags) :: s.saveLog) ∧
    (∀ v, mapFind (init_default_auth s).tags c = some v →
        (remove_authorized_tag s c).saveLog
          = (credentials_to_string (init_default_auth s).codes,
             credentials_to_string (mapErase (init_default_auth s).tags c))
            :: s.saveLog) ∧
    (clear_all_codes s).saveLog
        = (credentials_to_string ([] : CredMap),
           credentials_to_string s.tags) :: s.saveLog ∧
    (clear_all_tags s).saveLog
        = (credentials_to_string s.codes,
           credentials_to_string ([] : CredMap)) :: s.saveLog := by
  refine ⟨?_, ?_, ?_, ?_, ?_, ?_⟩
  · intro h
    simp only [add_authorized_code, if_neg (not_le.mpr h)]
    simp [save_credentials, init_saveLog]
  · intro h
    simp only [add_authorized_tag, if_neg (not_le.mpr h)]
    simp [save_credentials, init_saveLog]
  · intro v h
    simp [remove_authorized_code, h, save_credentials, init_saveLog]
  · intro v h
    simp [remove_authorized_tag, h, save_credentials, init_saveLog]
  · simp [clear_all_codes, save_credentials]
  · simp [clear_all_tags, save_credentials]

/-- C6 witness: a capacity-passing add on the small registry logs one
persistence event carrying both encoded classes. -/
theorem claim6_witness :
    mapSize (init_default_auth regW).codes < MAX_CODES ∧
    (add_authorized_code regW (("b").data) (("2").data)).saveLog
      = (credentials_to_string
           (mapAssign (init_default_auth regW).codes (("b").data) (("2").data)),
         credentials_to_string (init_default_auth regW).tags) :: regW.saveLog :=
  ⟨by decide, (claim6_persist regW (("b").data) (("2").data)).1 (by decide)⟩

/-- C7: round trip — for every well-formed `std::map` value whose keys
contain neither a comma nor a colon and whose principal names contain no
comma (colons in names are allowed: entries split on the first colon),
decoding the encoding returns exactly the same map. -/
theorem claim7_roundtrip (m : CredMap) (hwf : MapWF m)
    (hm : ∀ p ∈ m, (',' ∉ p.1 ∧ ':' ∉ p.1) ∧ ',' ∉ p.2) :
    parse_stored_credentials (credentials_to_string m) [] = m := by
  cases m with
  | nil => rfl
  | cons p ps =>
    have hp := hm p (List.mem_cons_self p ps)
    have hps : ∀ q ∈ ps, (',' ∉ q.1 ∧ ':' ∉ q.1) ∧ ',' ∉ q.2 :=
      fun q hq => hm q (List.mem_cons_of_mem p hq)
    rw [credentials_to_string_cons]
    have hne : (p.1 ++ ':' :: p.2) ++ commaJoin ps ≠ [] := by simp
    rw [parse_stored_credentials, if_neg hne,
      parseLoop_commaJoin ps p.1 p.2 [] hp.1.1 hp.1.2 hp.2 hps,
      show mapAssign [] p.1 p.2 = [p] from rfl,
      foldl_assign_sorted ps [p] (by simpa [MapWF] using hwf)]
    rfl

/-- C7 witness: a two-entry map whose second principal name contains a
colon survives the round trip. -/
theorem claim7_witness :
    MapWF [(("a").data, ("1").data), (("b").data, ("x:y").data)] ∧
    (∀ p ∈ ([(("a").data, ("1").data), (("b").data, ("x:y").data)] : CredMap),
        (',' ∉ p.1 ∧ ':' ∉ p.1) ∧ ',' ∉ p.2) ∧
    parse_stored_credentials
        (credentials_to_string
          [(("a").data, ("1").data), (("b").data, ("x:y").data)]) []
      = [(("a").data, ("1").data), (("b").data, ("x:y").data)] :=
  ⟨by decide, by decide,
    claim7_roundtrip [(("a").data, ("1").data), (("b").data, ("x:y").data)]
      (by decide) (by decide)⟩

/-- A fresh registry whose persisted tags string is non-trivial, used to
exhibit the initialization effect of a Code-class operation on the tags
map. -/
def tagSeeded : RegState := freshState [] (("a:1").data)

/-- C8 counterexample: the very first Code-class operation
(`check_authorized_code`) on an uninitialized registry changes the tags
map — lazy initialization loads **both** classes from persistence — so
"every operation on the Code class leaves the tags map unchanged" fails
at an uninitialized state with a non-empty persisted tags string. -/
theorem claim8_cex :
    ¬ (((check_authorized_code tagSeeded (("x").data)).1).tags
        = tagSeeded.tags) := by
  have h1 : ((check_authorized_code tagSeeded (("x").data)).1).tags
      = parse_stored_credentials (("a:1").data) [] := by
    simp [check_authorized_code, init_default_auth, tagSeeded, freshState]
  rw [h1, parse_eq_fuel]
  decide

/-- C8 (amended): from any **initialized** state, every Code-class
operation (add, remove, clear, membership check, name lookup, list)
leaves the tags map unchanged, and every Tag-class operation leaves the
codes map unchanged; the sole cross-class effect is the one-time lazy
initialization, which populates both maps. -/
theorem claim8_amended (s : RegState) (c n : Str) (h : s.inited = true) :
    (add_authorized_code s c n).tags = s.tags ∧
    (remove_authorized_code s c).tags = s.tags ∧
    (clear_all_codes s).tags = s.tags ∧
    ((check_authorized_code s c).1).tags = s.tags ∧
    ((get_code_user_name s c).1).tags = s.tags ∧
    ((list_authorized_codes s).1).tags = s.tags ∧
    (add_authorized_tag s c n).codes = s.codes ∧
    (remove_authorized_tag s c).codes = s.codes ∧
    (clear_all_tags s).codes = s.codes ∧
    ((check_authorized_tag s c).1).codes = s.codes ∧
    ((get_tag_user_name s c).1).codes = s.codes ∧
    ((list_authorized_tags s).1).codes = s.codes := by
  have hi := init_of_inited s h
  refine ⟨?_, ?_, ?_, ?_, ?_, ?_, ?_, ?_, ?_, ?_, ?_, ?_⟩ <;>
    simp only [add_authorized_code, add_authorized_tag,
      remove_authorized_code, remove_authorized_tag, clear_all_codes,
      clear_all_tags, check_authorized_code, check_authorized_tag,
      get_code_user_name, get_tag_user_name, list_authorized_codes,
      list_authorized_tags, hi] <;>
    first
      | rfl
      | (split <;> simp [save_credentials])

/-- C8 witness: a Code-class add on the initialized small registry
leaves its tags map unchanged. -/
theorem claim8_witness :
    regW.inited = true ∧
    (add_authorized_code regW (("z").data) (("9").data)).tags = regW.tags :=
  ⟨rfl, (claim8_amended regW (("z").data) (("9").data) rfl).1⟩

/-- C9: decode accepts entries with an empty key or an empty value —
`":name"` maps the empty key to `"name"`, `"id:"` maps `"id"` to the
empty name — while an entry with no colon at all (`"nocolon"`) is the
only kind that is dropped. -/
theorem claim9_empty_fields :
    parse_stored_credentials ((":name").data) [] = [(([] : Str), ("name").data)] ∧
    parse_stored_credentials (("id:").data) [] = [(("id").data, ([] : Str))] ∧
    parse_stored_credentials (("nocolon").data) [] = ([] : CredMap) := by
  refine ⟨?_, ?_, ?_⟩ <;> (rw [parse_eq_fuel]; decide)

/-- C10: each iteration of the decode loop strips the prefix up to and
including the first comma — the remainder is strictly shorter, which is
the well-foundedness argument under which the total function `parseLoop`
is defined, and one loop iteration rewrites to the recursive call on
that strictly shorter remainder. -/
theorem claim10_terminates (data e r : Str) (m : CredMap)
    (h : splitAtFirst ',' data = some (e, r)) :
    r.length < data.length ∧ data = e ++ ',' :: r ∧
    parseLoop data m = parseLoop r (parseEntry e m) :=
  ⟨splitAtFirst_length ',' data e r h, (splitAtFirst_some ',' data e r h).1,
   parseLoop_some data e r m h⟩

/-- C10 witness: one concrete loop iteration on `"a:1,b:2"`. -/
theorem claim10_witness :
    splitAtFirst ',' (("a:1,b:2").data)
        = some ((("a:1").data), (("b:2").data)) ∧
    ((("b:2").data : Str).length < (("a:1,b:2").data : Str).length ∧
     (("a:1,b:2").data : Str) = ("a:1").data ++ ',' :: ("b:2").data ∧
     parseLoop (("a:1,b:2").data) []
        = parseLoop (("b:2").data) (parseEntry (("a:1").data) [])) :=
  ⟨by decide,
    claim10_terminates (("a:1,b:2").data) (("a:1").data) (("b:2").data) []
      (by decide)⟩
